import Mathlib

/-!
# Verification of `FuturesOrdered` (futures-util/src/stream/futures_ordered.rs)

Shallow embedding of the `FuturesOrdered` combinator. A submitted future is
represented by the value it will eventually produce; when it completes is
decided by an external schedule, so every completion order is covered.

* `OrderWrapper` embeds the Rust struct of the same name (an item tagged with
  its submission index).
* The reorder buffer `queued_results` is a `BinaryHeap<OrderWrapper<_>>` in the
  source, whose `Ord` instance compares indices backwards, so `peek_mut` always
  exposes the entry with the *smallest* index.  We model the heap's observable
  behaviour by a list kept sorted by ascending index (`heapPush` inserts in
  order, the head is the minimum).
* The in-flight multiplexer is `FuturesUnordered`, which is not part of the
  sources under verification; following the specification it is an external
  collaborator that yields completed `(index, value)` pairs in an arbitrary
  order, reports exhaustion exactly when it holds no futures, and otherwise
  may report pending.  `muxPoll` models one poll of it, driven by a
  `MuxChoice` taken from an adversarial schedule.
-/

/-- Rust `OrderWrapper<T>`: an item tagged with its submission index. -/
structure OrderWrapper (α : Type) where
  item : α
  index : Nat
deriving DecidableEq, Repr

/-- Rust `FuturesOrdered<T>`.  `in_progress_queue` holds the still-running
futures (each represented by its eventual output), `queued_results` is the
reorder buffer sorted by ascending index, and the two counters are as in the
source. -/
structure FuturesOrdered (α : Type) where
  in_progress_queue : List (OrderWrapper α)
  queued_results : List (OrderWrapper α)
  next_incoming_index : Nat
  next_outgoing_index : Nat
deriving DecidableEq, Repr

/-- `FuturesOrdered::new`. -/
def FuturesOrdered.new : FuturesOrdered α :=
  { in_progress_queue := []
    queued_results := []
    next_incoming_index := 0
    next_outgoing_index := 0 }

/-- `FuturesOrdered::len`. -/
def FuturesOrdered.len (s : FuturesOrdered α) : Nat :=
  s.in_progress_queue.length + s.queued_results.length

/-- `FuturesOrdered::is_empty`. -/
def FuturesOrdered.is_empty (s : FuturesOrdered α) : Bool :=
  s.in_progress_queue.isEmpty && s.queued_results.isEmpty

/-- `FuturesOrdered::push`: wrap the future with `next_incoming_index`,
increment the counter, hand the wrapper to the multiplexer. -/
def FuturesOrdered.push (s : FuturesOrdered α) (future : α) : FuturesOrdered α :=
  { s with
    in_progress_queue :=
      s.in_progress_queue ++ [{ item := future, index := s.next_incoming_index }]
    next_incoming_index := s.next_incoming_index + 1 }

/-- Insertion into the reorder buffer: models `BinaryHeap::push` for a heap
whose `Ord` compares indices backwards (a min-heap by index), observed through
`peek_mut`/`pop` as a list sorted by ascending index. -/
def heapPush (w : OrderWrapper α) : List (OrderWrapper α) → List (OrderWrapper α)
  | [] => [w]
  | x :: xs => if w.index ≤ x.index then w :: x :: xs else x :: heapPush w xs

/-- One scheduling decision for a single poll of the multiplexer: either the
future sitting at position `pos` of the in-flight list completes now, or
nothing is ready. -/
inductive MuxChoice where
  | complete (pos : Nat)
  | pending
deriving DecidableEq, Repr

/-- Outcome of one poll of the multiplexer. -/
inductive MuxOut (α : Type) where
  | ready (w : OrderWrapper α)
  | done
  | pending
deriving DecidableEq, Repr

/-- Modelled from the spec: `FuturesUnordered::poll_next`, the external
unordered multiplexer (its implementation is not among the sources under
verification).  Per the specification's interface it returns `Ready(None)`
exactly when it holds no futures; otherwise, depending on the schedule, it
either hands back one completed future (removing it from the in-flight list)
or reports pending.  An out-of-range completion choice is treated as nothing
being ready. -/
def muxPoll (q : List (OrderWrapper α)) (c : MuxChoice) :
    MuxOut α × List (OrderWrapper α) :=
  match q with
  | [] => (MuxOut.done, [])
  | _ :: _ =>
    match c with
    | MuxChoice.pending => (MuxOut.pending, q)
    | MuxChoice.complete pos =>
      if h : pos < q.length then (MuxOut.ready (q.get ⟨pos, h⟩), q.eraseIdx pos)
      else (MuxOut.pending, q)

/-- Result of `FuturesOrdered::poll_next` (`Poll<Option<T::Output>>`). -/
inductive PollResult (α : Type) where
  | readySome (v : α)
  | readyNone
  | pending
deriving DecidableEq, Repr

/-- The `loop` in `FuturesOrdered::poll_next`: repeatedly poll the
multiplexer; a completion matching `next_outgoing_index` is returned at once,
any other completion is pushed into the reorder buffer and the loop
continues; exhaustion and pending are propagated.  The schedule list supplies
one `MuxChoice` per multiplexer poll; an exhausted schedule means the
multiplexer would report pending (or exhaustion, if it is empty). -/
def pollLoop : List MuxChoice → FuturesOrdered α → PollResult α × FuturesOrdered α
  | [], s =>
    if s.in_progress_queue.isEmpty then (PollResult.readyNone, s)
    else (PollResult.pending, s)
  | c :: cs, s =>
    match muxPoll s.in_progress_queue c with
    | (MuxOut.done, q) => (PollResult.readyNone, { s with in_progress_queue := q })
    | (MuxOut.pending, q) => (PollResult.pending, { s with in_progress_queue := q })
    | (MuxOut.ready w, q) =>
      if w.index = s.next_outgoing_index then
        (PollResult.readySome w.item,
          { s with in_progress_queue := q
                   next_outgoing_index := s.next_outgoing_index + 1 })
      else
        pollLoop cs
          { s with in_progress_queue := q
                   queued_results := heapPush w s.queued_results }

/-- `FuturesOrdered::poll_next`: first check whether the minimum entry of the
reorder buffer carries `next_outgoing_index` (the `peek_mut` block); if so pop
and return it, otherwise enter the multiplexer drain loop. -/
def FuturesOrdered.poll_next (s : FuturesOrdered α) (sched : List MuxChoice) :
    PollResult α × FuturesOrdered α :=
  match s.queued_results with
  | next_result :: rest =>
    if next_result.index = s.next_outgoing_index then
      (PollResult.readySome next_result.item,
        { s with queued_results := rest
                 next_outgoing_index := s.next_outgoing_index + 1 })
    else pollLoop sched s
  | [] => pollLoop sched s

/-- `FromIterator for FuturesOrdered` (`from_iter`): fold `push` over the
input starting from the empty queue, exactly as the source does. -/
def FuturesOrdered.from_iter (l : List α) : FuturesOrdered α :=
  l.foldl (fun acc item => acc.push item) FuturesOrdered.new

/-- The free function `futures_ordered`: `futures.into_iter().collect()`. -/
def futures_ordered (l : List α) : FuturesOrdered α :=
  FuturesOrdered.from_iter l

/-- Sequential submission: push each element of the list in order. -/
def pushList : List α → FuturesOrdered α → FuturesOrdered α
  | [], s => s
  | x :: xs, s => pushList xs (s.push x)

/-- Run a sequence of `poll_next` calls, one schedule per call, collecting
the results. -/
def runPolls : List (List MuxChoice) → FuturesOrdered α →
    List (PollResult α) × FuturesOrdered α
  | [], s => ([], s)
  | sched :: rest, s =>
    let step := s.poll_next sched
    let cont := runPolls rest step.2
    (step.1 :: cont.1, cont.2)

/-- The values delivered by a list of poll results. -/
def emitted : List (PollResult α) → List α
  | [] => []
  | PollResult.readySome v :: rs => v :: emitted rs
  | PollResult.readyNone :: rs => emitted rs
  | PollResult.pending :: rs => emitted rs

/-- Indices of the in-flight futures. -/
def flightIndices (s : FuturesOrdered α) : List Nat :=
  s.in_progress_queue.map OrderWrapper.index

/-- Indices of the buffered results. -/
def bufIndices (s : FuturesOrdered α) : List Nat :=
  s.queued_results.map OrderWrapper.index

/-- The state invariant: the outgoing counter never exceeds the incoming one,
the indices held in flight or buffered are exactly the interval
`[next_outgoing_index, next_incoming_index)` with each index occurring once,
and the buffer is sorted by ascending index. -/
def FuturesOrdered.Inv (s : FuturesOrdered α) : Prop :=
  s.next_outgoing_index ≤ s.next_incoming_index ∧
  List.Perm (flightIndices s ++ bufIndices s)
    (List.range' s.next_outgoing_index
      (s.next_incoming_index - s.next_outgoing_index)) ∧
  List.Pairwise (· ≤ ·) (bufIndices s)

/-- Value coherence: `v` records, per index, the value the future with that
index produces. -/
def Agrees (v : Nat → Option α) (s : FuturesOrdered α) : Prop :=
  ∀ w ∈ s.in_progress_queue ++ s.queued_results, v w.index = some w.item

/-- The wrappers produced by pushing a list of futures starting at counter
value `i`. -/
def wrapFrom (i : Nat) : List α → List (OrderWrapper α)
  | [] => []
  | x :: xs => { item := x, index := i } :: wrapFrom (i + 1) xs

/-- States reachable from the empty queue by submissions and polls. -/
inductive FuturesOrdered.Reachable : FuturesOrdered α → Prop where
  | base : Reachable FuturesOrdered.new
  | step_push (s : FuturesOrdered α) (x : α) :
      Reachable s → Reachable (s.push x)
  | step_poll (s : FuturesOrdered α) (sched : List MuxChoice) :
      Reachable s → Reachable (s.poll_next sched).2

/-! ## Helper lemmas about the reorder buffer model -/

lemma heapPush_ne_nil (w : OrderWrapper α) (l : List (OrderWrapper α)) :
    heapPush w l ≠ [] := by
  cases l with
  | nil => simp [heapPush]
  | cons x xs =>
    simp only [heapPush]
    split <;> simp

lemma mem_heapPush {u w : OrderWrapper α} {l : List (OrderWrapper α)} :
    u ∈ heapPush w l ↔ u = w ∨ u ∈ l := by
  induction l with
  | nil => simp [heapPush]
  | cons x xs ih =>
    simp only [heapPush]
    split
    · simp [or_comm, or_assoc, or_left_comm]
    · simp [ih]
      tauto

lemma heapPush_map_index_perm (w : OrderWrapper α) (l : List (OrderWrapper α)) :
    List.Perm ((heapPush w l).map OrderWrapper.index)
      (w.index :: l.map OrderWrapper.index) := by
  induction l with
  | nil => simp [heapPush]
  | cons x xs ih =>
    simp only [heapPush]
    split
    · simp
    · simp only [List.map_cons]
      exact (ih.cons x.index).trans (List.Perm.swap w.index x.index _)

lemma heapPush_sorted {w : OrderWrapper α} {l : List (OrderWrapper α)}
    (h : List.Pairwise (· ≤ ·) (l.map OrderWrapper.index)) :
    List.Pairwise (· ≤ ·) ((heapPush w l).map OrderWrapper.index) := by
  induction l with
  | nil => simp [heapPush]
  | cons x xs ih =>
    simp only [List.map_cons, List.pairwise_cons] at h
    simp only [heapPush]
    split
    · rename_i hle
      simp only [List.map_cons, List.pairwise_cons]
      refine ⟨?_, h.1, h.2⟩
      intro b hb
      simp only [List.map_cons, List.mem_cons] at hb
      rcases hb with rfl | hb
      · exact hle
      · exact le_trans hle (h.1 b hb)
    · rename_i hgt
      push_neg at hgt
      simp only [List.map_cons, List.pairwise_cons]
      refine ⟨?_, ih h.2⟩
      intro b hb
      simp only [List.mem_map] at hb
      obtain ⟨u, hu, rfl⟩ := hb
      rcases mem_heapPush.mp hu with rfl | hu
      · exact le_of_lt hgt
      · exact h.1 u.index (List.mem_map_of_mem OrderWrapper.index hu)

lemma get_cons_eraseIdx_perm :
    ∀ (l : List β) (i : Nat) (h : i < l.length),
      List.Perm (l.get ⟨i, h⟩ :: l.eraseIdx i) l
  | _ :: _, 0, _ => by simp [List.eraseIdx]
  | a :: as, i+1, h => by
    have ih := get_cons_eraseIdx_perm as i (by simpa using h)
    simpa [List.eraseIdx] using
      (List.Perm.swap a (as.get ⟨i, by simpa using h⟩) (as.eraseIdx i)).trans
        (ih.cons a)

lemma range'_head_cancel {out n : Nat} {L : List Nat}
    (h : List.Perm (out :: L) (List.range' out n)) :
    0 < n ∧ List.Perm L (List.range' (out + 1) (n - 1)) := by
  have hmem : out ∈ List.range' out n := h.mem_iff.mp (List.mem_cons_self _ _)
  have hn : 0 < n := by
    rcases List.mem_range'_1.mp hmem with ⟨-, h2⟩
    omega
  obtain ⟨m, rfl⟩ : ∃ m, n = m + 1 := ⟨n - 1, by omega⟩
  rw [List.range'_succ] at h
  exact ⟨hn, by simpa using h.cons_inv⟩

lemma empty_flight_buffer {s : FuturesOrdered α}
    (hInv : s.Inv) (hgt : ∀ i ∈ bufIndices s, s.next_outgoing_index < i)
    (hq : s.in_progress_queue = []) :
    s.next_outgoing_index = s.next_incoming_index ∧ s.queued_results = [] := by
  obtain ⟨hle, hperm, -⟩ := hInv
  have hflight : flightIndices s = [] := by simp [flightIndices, hq]
  rw [hflight, List.nil_append] at hperm
  by_cases hn : s.next_incoming_index - s.next_outgoing_index = 0
  · have hlen := hperm.length_eq
    rw [hn] at hlen
    simp only [List.range', List.length_nil] at hlen
    have hbuf : s.queued_results = [] := by
      have := List.length_eq_zero.mp hlen
      simpa [bufIndices, List.map_eq_nil_iff] using this
    exact ⟨by omega, hbuf⟩
  · exfalso
    have hmem : s.next_outgoing_index ∈
        List.range' s.next_outgoing_index
          (s.next_incoming_index - s.next_outgoing_index) := by
      rw [List.mem_range'_1]
      omega
    have := hgt _ (hperm.mem_iff.mpr hmem)
    omega


lemma muxPoll_nil (c : MuxChoice) :
    muxPoll ([] : List (OrderWrapper α)) c = (MuxOut.done, []) := rfl

lemma muxPoll_pending_choice {q : List (OrderWrapper α)} (hq : q ≠ []) :
    muxPoll q MuxChoice.pending = (MuxOut.pending, q) := by
  cases q with
  | nil => exact absurd rfl hq
  | cons a as => rfl

lemma muxPoll_complete {q : List (OrderWrapper α)} {pos : Nat}
    (h : pos < q.length) :
    muxPoll q (MuxChoice.complete pos) =
      (MuxOut.ready (q.get ⟨pos, h⟩), q.eraseIdx pos) := by
  cases q with
  | nil => simp at h
  | cons a as =>
    rw [muxPoll]
    rw [dif_pos h]

lemma muxPoll_complete_oob {q : List (OrderWrapper α)} {pos : Nat}
    (hq : q ≠ []) (h : ¬ pos < q.length) :
    muxPoll q (MuxChoice.complete pos) = (MuxOut.pending, q) := by
  cases q with
  | nil => exact absurd rfl hq
  | cons a as =>
    rw [muxPoll]
    rw [dif_neg h]

lemma set_flight_eq_self {s : FuturesOrdered α} {q : List (OrderWrapper α)}
    (h : s.in_progress_queue = q) : { s with in_progress_queue := q } = s := by
  subst h
  rfl

lemma pollLoop_done {c : MuxChoice} {cs : List MuxChoice} {s : FuturesOrdered α}
    {q : List (OrderWrapper α)}
    (h : muxPoll s.in_progress_queue c = (MuxOut.done, q)) :
    pollLoop (c :: cs) s =
      (PollResult.readyNone, { s with in_progress_queue := q }) := by
  rw [pollLoop, h]

lemma pollLoop_pending {c : MuxChoice} {cs : List MuxChoice} {s : FuturesOrdered α}
    {q : List (OrderWrapper α)}
    (h : muxPoll s.in_progress_queue c = (MuxOut.pending, q)) :
    pollLoop (c :: cs) s =
      (PollResult.pending, { s with in_progress_queue := q }) := by
  rw [pollLoop, h]

lemma pollLoop_ready_match {c : MuxChoice} {cs : List MuxChoice}
    {s : FuturesOrdered α} {w : OrderWrapper α} {q : List (OrderWrapper α)}
    (h : muxPoll s.in_progress_queue c = (MuxOut.ready w, q))
    (hidx : w.index = s.next_outgoing_index) :
    pollLoop (c :: cs) s =
      (PollResult.readySome w.item,
        { s with in_progress_queue := q
                 next_outgoing_index := s.next_outgoing_index + 1 }) := by
  rw [pollLoop, h]
  simp [hidx]

lemma pollLoop_ready_buffer {c : MuxChoice} {cs : List MuxChoice}
    {s : FuturesOrdered α} {w : OrderWrapper α} {q : List (OrderWrapper α)}
    (h : muxPoll s.in_progress_queue c = (MuxOut.ready w, q))
    (hidx : w.index ≠ s.next_outgoing_index) :
    pollLoop (c :: cs) s =
      pollLoop cs
        { s with in_progress_queue := q
                 queued_results := heapPush w s.queued_results } := by
  rw [pollLoop, h]
  simp [hidx]

lemma pollLoop_spec (v : Nat → Option α) :
    ∀ (sched : List MuxChoice) (s : FuturesOrdered α),
      s.Inv → Agrees v s →
      (∀ i ∈ bufIndices s, s.next_outgoing_index < i) →
      ((pollLoop sched s).2.Inv ∧
       Agrees v (pollLoop sched s).2 ∧
       (pollLoop sched s).2.next_incoming_index = s.next_incoming_index) ∧
      (∀ x, (pollLoop sched s).1 = PollResult.readySome x →
        v s.next_outgoing_index = some x ∧
        (pollLoop sched s).2.next_outgoing_index = s.next_outgoing_index + 1) ∧
      ((pollLoop sched s).1 = PollResult.readyNone →
        (pollLoop sched s).2 = s ∧
        s.next_outgoing_index = s.next_incoming_index ∧
        s.in_progress_queue = [] ∧ s.queued_results = []) ∧
      ((pollLoop sched s).1 = PollResult.pending →
        (pollLoop sched s).2.next_outgoing_index = s.next_outgoing_index) := by
  intro sched
  induction sched with
  | nil =>
    intro s hInv hAg hgt
    by_cases hq : s.in_progress_queue = []
    · have hres : pollLoop [] s = (PollResult.readyNone, s) := by
        simp [pollLoop, hq]
      rw [hres]
      have hed := empty_flight_buffer hInv hgt hq
      exact ⟨⟨hInv, hAg, rfl⟩, by simp, fun _ => ⟨rfl, hed.1, hq, hed.2⟩, by simp⟩
    · have hres : pollLoop [] s = (PollResult.pending, s) := by
        simp [pollLoop, List.isEmpty_iff, hq]
      rw [hres]
      exact ⟨⟨hInv, hAg, rfl⟩, by simp, by simp, fun _ => rfl⟩
  | cons c cs ih =>
    intro s hInv hAg hgt
    by_cases hq : s.in_progress_queue = []
    · have hmux : muxPoll s.in_progress_queue c = (MuxOut.done, []) := by
        rw [hq, muxPoll_nil]
      have hres : pollLoop (c :: cs) s = (PollResult.readyNone, s) := by
        rw [pollLoop_done hmux, set_flight_eq_self hq]
      rw [hres]
      have hed := empty_flight_buffer hInv hgt hq
      exact ⟨⟨hInv, hAg, rfl⟩, by simp, fun _ => ⟨rfl, hed.1, hq, hed.2⟩, by simp⟩
    · cases c with
      | pending =>
        have hres : pollLoop (MuxChoice.pending :: cs) s = (PollResult.pending, s) := by
          rw [pollLoop_pending (muxPoll_pending_choice hq), set_flight_eq_self rfl]
        rw [hres]
        exact ⟨⟨hInv, hAg, rfl⟩, by simp, by simp, fun _ => rfl⟩
      | complete pos =>
        by_cases hpos : pos < s.in_progress_queue.length
        · have hmux := muxPoll_complete (q := s.in_progress_queue) hpos
          set w := s.in_progress_queue.get ⟨pos, hpos⟩ with hw
          have hpq : List.Perm (w :: s.in_progress_queue.eraseIdx pos)
              s.in_progress_queue := get_cons_eraseIdx_perm _ pos hpos
          have hwmem : w ∈ s.in_progress_queue :=
            hpq.mem_iff.mp (List.mem_cons_self _ _)
          obtain ⟨hle, hperm, hsort⟩ := hInv
          have hwrange : w.index ∈ List.range' s.next_outgoing_index
              (s.next_incoming_index - s.next_outgoing_index) := by
            apply hperm.mem_iff.mp
            apply List.mem_append_left
            exact List.mem_map_of_mem OrderWrapper.index hwmem
          have hfront : List.Perm
              (w.index :: ((s.in_progress_queue.eraseIdx pos).map OrderWrapper.index
                ++ bufIndices s))
              (List.range' s.next_outgoing_index
                (s.next_incoming_index - s.next_outgoing_index)) := by
            have h1 := (hpq.map OrderWrapper.index).append_right (bufIndices s)
            simp only [List.map_cons, List.cons_append] at h1
            exact h1.trans hperm
          by_cases hidx : w.index = s.next_outgoing_index
          · rw [pollLoop_ready_match hmux hidx]
            rw [hidx] at hfront
            have hcancel := range'_head_cancel hfront
            have h0 := hcancel.1
            refine ⟨⟨⟨?_, ?_, hsort⟩, ?_, rfl⟩, ?_, by simp, by simp⟩
            · show s.next_outgoing_index + 1 ≤ s.next_incoming_index
              omega
            · show List.Perm
                ((s.in_progress_queue.eraseIdx pos).map OrderWrapper.index
                  ++ bufIndices s)
                (List.range' (s.next_outgoing_index + 1)
                  (s.next_incoming_index - (s.next_outgoing_index + 1)))
              have heq : s.next_incoming_index - (s.next_outgoing_index + 1) =
                  s.next_incoming_index - s.next_outgoing_index - 1 := by omega
              rw [heq]
              exact hcancel.2
            · intro u hu
              apply hAg
              simp only [List.mem_append] at hu ⊢
              rcases hu with hu | hu
              · exact Or.inl (hpq.mem_iff.mp (List.mem_cons_of_mem _ hu))
              · exact Or.inr hu
            · intro x hx
              have hxw : w.item = x := by
                simpa using hx
              subst hxw
              have hv := hAg w (List.mem_append_left _ hwmem)
              rw [hidx] at hv
              exact ⟨hv, rfl⟩
          · set s1 : FuturesOrdered α :=
              { s with in_progress_queue := s.in_progress_queue.eraseIdx pos
                       queued_results := heapPush w s.queued_results } with hs1
            have hres : pollLoop (MuxChoice.complete pos :: cs) s = pollLoop cs s1 :=
              pollLoop_ready_buffer hmux hidx
            have hInv1 : s1.Inv := by
              refine ⟨hle, ?_, heapPush_sorted hsort⟩
              show List.Perm
                ((s.in_progress_queue.eraseIdx pos).map OrderWrapper.index
                  ++ (heapPush w s.queued_results).map OrderWrapper.index)
                (List.range' s.next_outgoing_index
                  (s.next_incoming_index - s.next_outgoing_index))
              refine List.Perm.trans
                (List.Perm.append_left _ (heapPush_map_index_perm w s.queued_results)) ?_
              exact List.perm_middle.trans hfront
            have hAg1 : Agrees v s1 := by
              intro u hu
              simp only [hs1, List.mem_append] at hu
              apply hAg
              rcases hu with hu | hu
              · exact List.mem_append_left _ (hpq.mem_iff.mp (List.mem_cons_of_mem _ hu))
              · rcases mem_heapPush.mp hu with rfl | hu
                · exact List.mem_append_left _ hwmem
                · exact List.mem_append_right _ hu
            have hgt1 : ∀ i ∈ bufIndices s1, s1.next_outgoing_index < i := by
              intro i hi
              simp only [hs1, bufIndices] at hi
              have hi2 := (heapPush_map_index_perm w s.queued_results).mem_iff.mp hi
              rcases List.mem_cons.mp hi2 with rfl | hi'
              · have := List.mem_range'_1.mp hwrange
                show s.next_outgoing_index < w.index
                omega
              · exact hgt i hi'
            have IH := ih s1 hInv1 hAg1 hgt1
            rw [hres]
            refine ⟨⟨IH.1.1, IH.1.2.1, IH.1.2.2⟩, fun x hx => IH.2.1 x hx, ?_, ?_⟩
            · intro hnone
              exfalso
              have hb := (IH.2.2.1 hnone).2.2.2
              simp only [hs1] at hb
              exact heapPush_ne_nil w s.queued_results hb
            · intro hpend
              exact IH.2.2.2 hpend
        · have hres : pollLoop (MuxChoice.complete pos :: cs) s =
              (PollResult.pending, s) := by
            rw [pollLoop_pending (muxPoll_complete_oob hq hpos), set_flight_eq_self rfl]
          rw [hres]
          exact ⟨⟨hInv, hAg, rfl⟩, by simp, by simp, fun _ => rfl⟩

lemma poll_next_eq_pollLoop_of_nil {s : FuturesOrdered α} {sched : List MuxChoice}
    (hbuf : s.queued_results = []) : s.poll_next sched = pollLoop sched s := by
  rw [FuturesOrdered.poll_next, hbuf]

lemma poll_next_eq_pop {s : FuturesOrdered α} {sched : List MuxChoice}
    {w : OrderWrapper α} {rest : List (OrderWrapper α)}
    (hbuf : s.queued_results = w :: rest)
    (hidx : w.index = s.next_outgoing_index) :
    s.poll_next sched =
      (PollResult.readySome w.item,
        { s with queued_results := rest
                 next_outgoing_index := s.next_outgoing_index + 1 }) := by
  rw [FuturesOrdered.poll_next, hbuf]
  simp [hidx]

lemma poll_next_eq_pollLoop_of_no_match {s : FuturesOrdered α}
    {sched : List MuxChoice} {w : OrderWrapper α} {rest : List (OrderWrapper α)}
    (hbuf : s.queued_results = w :: rest)
    (hidx : w.index ≠ s.next_outgoing_index) :
    s.poll_next sched = pollLoop sched s := by
  rw [FuturesOrdered.poll_next, hbuf]
  simp [hidx]

lemma buf_gt_of_no_match {s : FuturesOrdered α} {w : OrderWrapper α}
    {rest : List (OrderWrapper α)} (hInv : s.Inv)
    (hbuf : s.queued_results = w :: rest)
    (hidx : w.index ≠ s.next_outgoing_index) :
    ∀ i ∈ bufIndices s, s.next_outgoing_index < i := by
  obtain ⟨hle, hperm, hsort⟩ := hInv
  have hwgt : s.next_outgoing_index < w.index := by
    have hwmem : w.index ∈ List.range' s.next_outgoing_index
        (s.next_incoming_index - s.next_outgoing_index) := by
      apply hperm.mem_iff.mp
      apply List.mem_append_right
      simp [bufIndices, hbuf]
    have := List.mem_range'_1.mp hwmem
    omega
  intro i hi
  simp only [bufIndices, hbuf, List.map_cons, List.mem_cons] at hi
  rcases hi with rfl | hi
  · exact hwgt
  · have hws : w.index ≤ i := by
      have hs := hsort
      simp only [bufIndices, hbuf, List.map_cons, List.pairwise_cons] at hs
      exact hs.1 i hi
    omega

lemma poll_next_spec (v : Nat → Option α) (sched : List MuxChoice)
    (s : FuturesOrdered α) (hInv : s.Inv) (hAg : Agrees v s) :
    ((s.poll_next sched).2.Inv ∧
     Agrees v (s.poll_next sched).2 ∧
     (s.poll_next sched).2.next_incoming_index = s.next_incoming_index) ∧
    (∀ x, (s.poll_next sched).1 = PollResult.readySome x →
      v s.next_outgoing_index = some x ∧
      (s.poll_next sched).2.next_outgoing_index = s.next_outgoing_index + 1) ∧
    ((s.poll_next sched).1 = PollResult.readyNone →
      (s.poll_next sched).2 = s ∧
      s.next_outgoing_index = s.next_incoming_index ∧
      s.in_progress_queue = [] ∧ s.queued_results = []) ∧
    ((s.poll_next sched).1 = PollResult.pending →
      (s.poll_next sched).2.next_outgoing_index = s.next_outgoing_index) := by
  cases hbuf : s.queued_results with
  | nil =>
    rw [poll_next_eq_pollLoop_of_nil hbuf]
    have hgt : ∀ i ∈ bufIndices s, s.next_outgoing_index < i := by
      simp [bufIndices, hbuf]
    have H := pollLoop_spec v sched s hInv hAg hgt
    refine ⟨H.1, H.2.1, ?_, H.2.2.2⟩
    intro h
    exact ⟨(H.2.2.1 h).1, (H.2.2.1 h).2.1, (H.2.2.1 h).2.2.1, rfl⟩
  | cons w rest =>
    by_cases hidx : w.index = s.next_outgoing_index
    · rw [poll_next_eq_pop hbuf hidx]
      obtain ⟨hle, hperm, hsort⟩ := hInv
      have hfront : List.Perm
          (w.index :: (flightIndices s ++ rest.map OrderWrapper.index))
          (List.range' s.next_outgoing_index
            (s.next_incoming_index - s.next_outgoing_index)) := by
        refine List.Perm.trans ?_ hperm
        have : bufIndices s = w.index :: rest.map OrderWrapper.index := by
          simp [bufIndices, hbuf]
        rw [this]
        exact List.perm_middle.symm
      rw [hidx] at hfront
      have hcancel := range'_head_cancel hfront
      have h0 := hcancel.1
      refine ⟨⟨⟨?_, ?_, ?_⟩, ?_, rfl⟩, ?_, by simp, by simp⟩
      · show s.next_outgoing_index + 1 ≤ s.next_incoming_index
        omega
      · show List.Perm (flightIndices s ++ rest.map OrderWrapper.index)
          (List.range' (s.next_outgoing_index + 1)
            (s.next_incoming_index - (s.next_outgoing_index + 1)))
        have heq : s.next_incoming_index - (s.next_outgoing_index + 1) =
            s.next_incoming_index - s.next_outgoing_index - 1 := by omega
        rw [heq]
        exact hcancel.2
      · show List.Pairwise (· ≤ ·) (rest.map OrderWrapper.index)
        have hs := hsort
        simp only [bufIndices, hbuf, List.map_cons, List.pairwise_cons] at hs
        exact hs.2
      · intro u hu
        apply hAg
        simp only [List.mem_append] at hu ⊢
        rcases hu with hu | hu
        · exact Or.inl hu
        · exact Or.inr (by rw [hbuf]; exact List.mem_cons_of_mem _ hu)
      · intro x hx
        have hxw : w.item = x := by simpa using hx
        subst hxw
        have hv : v w.index = some w.item := by
          apply hAg
          apply List.mem_append_right
          rw [hbuf]
          exact List.mem_cons_self _ _
        rw [hidx] at hv
        exact ⟨hv, rfl⟩
    · rw [poll_next_eq_pollLoop_of_no_match hbuf hidx]
      have H := pollLoop_spec v sched s hInv hAg (buf_gt_of_no_match hInv hbuf hidx)
      refine ⟨H.1, H.2.1, ?_, H.2.2.2⟩
      intro h
      exact ⟨(H.2.2.1 h).1, (H.2.2.1 h).2.1, (H.2.2.1 h).2.2.1,
        hbuf.symm.trans (H.2.2.1 h).2.2.2⟩

lemma push_Inv {s : FuturesOrdered α} (hInv : s.Inv) (x : α) : (s.push x).Inv := by
  obtain ⟨hle, hperm, hsort⟩ := hInv
  refine ⟨?_, ?_, hsort⟩
  · show s.next_outgoing_index ≤ s.next_incoming_index + 1
    omega
  · show List.Perm
      ((s.in_progress_queue ++
          [({ item := x, index := s.next_incoming_index } : OrderWrapper α)]).map
            OrderWrapper.index
        ++ bufIndices s)
      (List.range' s.next_outgoing_index
        (s.next_incoming_index + 1 - s.next_outgoing_index))
    have hrhs : List.range' s.next_outgoing_index
        (s.next_incoming_index + 1 - s.next_outgoing_index) =
        List.range' s.next_outgoing_index
          (s.next_incoming_index - s.next_outgoing_index) ++
          [s.next_incoming_index] := by
      have h1 : s.next_incoming_index + 1 - s.next_outgoing_index =
          (s.next_incoming_index - s.next_outgoing_index) + 1 := by omega
      rw [h1, List.range'_concat]
      have h2 : s.next_outgoing_index + 1 *
          (s.next_incoming_index - s.next_outgoing_index) =
          s.next_incoming_index := by omega
      rw [h2]
    rw [hrhs, List.map_append]
    refine List.Perm.trans ?_ (hperm.append_right [s.next_incoming_index])
    simp only [List.map_cons, List.map_nil, List.append_assoc]
    refine List.Perm.append_left _ ?_
    exact List.perm_append_comm

lemma find_index_eq {L : List (OrderWrapper α)}
    (hnd : (L.map OrderWrapper.index).Nodup)
    {w : OrderWrapper α} (hw : w ∈ L) :
    L.find? (fun u => u.index == w.index) = some w := by
  induction L with
  | nil => simp at hw
  | cons a as ih =>
    simp only [List.map_cons, List.nodup_cons] at hnd
    rcases List.mem_cons.mp hw with rfl | hw'
    · exact List.find?_cons_of_pos _ (by simp)
    · have hne : a.index ≠ w.index := by
        intro h
        exact hnd.1 (h ▸ List.mem_map_of_mem OrderWrapper.index hw')
      rw [List.find?_cons_of_neg _ (by simp [hne])]
      exact ih hnd.2 hw'

lemma inv_nodup {s : FuturesOrdered α} (hInv : s.Inv) :
    ((s.in_progress_queue ++ s.queued_results).map OrderWrapper.index).Nodup := by
  rw [List.map_append]
  exact (hInv.2.1.nodup_iff).mpr (List.nodup_range' _ _)

lemma exists_agrees {s : FuturesOrdered α} (hInv : s.Inv) :
    ∃ v : Nat → Option α, Agrees v s := by
  refine ⟨fun i => ((s.in_progress_queue ++ s.queued_results).find?
    (fun w => w.index == i)).map OrderWrapper.item, ?_⟩
  intro w hw
  simp only [find_index_eq (inv_nodup hInv) hw, Option.map_some']

lemma new_Inv : (FuturesOrdered.new (α := α)).Inv := by
  refine ⟨Nat.le_refl 0, ?_, ?_⟩
  · show List.Perm ([] ++ []) (List.range' 0 (0 - 0))
    simp
  · show List.Pairwise (· ≤ ·) ([] : List Nat)
    simp

lemma reachable_inv {s : FuturesOrdered α} (h : s.Reachable) : s.Inv := by
  induction h with
  | base => exact new_Inv
  | step_push s x hr ih => exact push_Inv ih x
  | step_poll s sched hr ih =>
    obtain ⟨v, hAg⟩ := exists_agrees ih
    exact (poll_next_spec v sched s ih hAg).1.1

lemma pushList_eq : ∀ (l : List α) (s : FuturesOrdered α),
    pushList l s =
      { s with
        in_progress_queue :=
          s.in_progress_queue ++ wrapFrom s.next_incoming_index l
        next_incoming_index := s.next_incoming_index + l.length } := by
  intro l
  induction l with
  | nil =>
    intro s
    simp [pushList, wrapFrom]
  | cons x xs ih =>
    intro s
    rw [pushList, ih]
    simp only [FuturesOrdered.push, wrapFrom, List.length_cons]
    refine congrArg₂ (fun a b => FuturesOrdered.mk a s.queued_results b
      s.next_outgoing_index) ?_ ?_
    · rw [List.append_assoc]
      rfl
    · omega

lemma wrapFrom_map_index : ∀ (l : List α) (i : Nat),
    (wrapFrom i l).map OrderWrapper.index = List.range' i l.length := by
  intro l
  induction l with
  | nil => intro i; simp [wrapFrom]
  | cons x xs ih =>
    intro i
    rw [wrapFrom, List.map_cons, ih, List.length_cons, List.range'_succ]

lemma mem_wrapFrom_getElem : ∀ {l : List α} {i : Nat} {w : OrderWrapper α},
    w ∈ wrapFrom i l → i ≤ w.index ∧ l[w.index - i]? = some w.item := by
  intro l
  induction l with
  | nil => intro i w hw; simp [wrapFrom] at hw
  | cons x xs ih =>
    intro i w hw
    rw [wrapFrom] at hw
    rcases List.mem_cons.mp hw with rfl | hw'
    · simp
    · obtain ⟨h1, h2⟩ := ih hw'
      refine ⟨by omega, ?_⟩
      have heq : w.index - i = (w.index - (i + 1)) + 1 := by omega
      rw [heq, List.getElem?_cons_succ]
      exact h2

lemma pushList_new (vs : List α) :
    pushList vs FuturesOrdered.new =
      { in_progress_queue := wrapFrom 0 vs
        queued_results := []
        next_incoming_index := vs.length
        next_outgoing_index := 0 } := by
  rw [pushList_eq]
  simp [FuturesOrdered.new]

lemma initial_Inv (vs : List α) : (pushList vs FuturesOrdered.new).Inv := by
  rw [pushList_new]
  refine ⟨Nat.zero_le _, ?_, ?_⟩
  · show List.Perm ((wrapFrom 0 vs).map OrderWrapper.index ++ [])
      (List.range' 0 (vs.length - 0))
    rw [wrapFrom_map_index, List.append_nil, Nat.sub_zero]
  · show List.Pairwise (· ≤ ·) (([] : List (OrderWrapper α)).map OrderWrapper.index)
    simp

lemma initial_agrees (vs : List α) :
    Agrees (fun j => vs[j]?) (pushList vs FuturesOrdered.new) := by
  rw [pushList_new]
  intro w hw
  simp only [List.append_nil] at hw
  have h := mem_wrapFrom_getElem hw
  simpa using h.2

lemma runPolls_cons_fst (sched : List MuxChoice) (rest : List (List MuxChoice))
    (s : FuturesOrdered α) :
    (runPolls (sched :: rest) s).1 =
      (s.poll_next sched).1 :: (runPolls rest (s.poll_next sched).2).1 := rfl

lemma runPolls_cons_snd (sched : List MuxChoice) (rest : List (List MuxChoice))
    (s : FuturesOrdered α) :
    (runPolls (sched :: rest) s).2 = (runPolls rest (s.poll_next sched).2).2 := rfl

lemma runPolls_spec (v : Nat → Option α) :
    ∀ (scheds : List (List MuxChoice)) (s : FuturesOrdered α),
      s.Inv → Agrees v s →
      (runPolls scheds s).2.Inv ∧
      Agrees v (runPolls scheds s).2 ∧
      (runPolls scheds s).2.next_incoming_index = s.next_incoming_index ∧
      s.next_outgoing_index ≤ (runPolls scheds s).2.next_outgoing_index ∧
      emitted (runPolls scheds s).1 =
        (List.range' s.next_outgoing_index
          ((runPolls scheds s).2.next_outgoing_index -
            s.next_outgoing_index)).filterMap v ∧
      (PollResult.readyNone ∈ (runPolls scheds s).1 →
        (runPolls scheds s).2.next_outgoing_index = s.next_incoming_index) := by
  intro scheds
  induction scheds with
  | nil =>
    intro s hInv hAg
    refine ⟨hInv, hAg, rfl, Nat.le_refl _, ?_, ?_⟩
    · show emitted ([] : List (PollResult α)) =
        (List.range' s.next_outgoing_index
          (s.next_outgoing_index - s.next_outgoing_index)).filterMap v
      simp [emitted]
    · intro h
      simp [runPolls] at h
  | cons sched rest ih =>
    intro s hInv hAg
    rw [runPolls_cons_fst, runPolls_cons_snd]
    have HP := poll_next_spec v sched s hInv hAg
    have IH := ih (s.poll_next sched).2 HP.1.1 HP.1.2.1
    have hinc2 : (runPolls rest (s.poll_next sched).2).2.next_incoming_index =
        s.next_incoming_index := IH.2.2.1.trans HP.1.2.2
    cases hP1 : (s.poll_next sched).1 with
    | readySome x =>
      obtain ⟨hvx, hout⟩ := HP.2.1 x hP1
      have hmono : s.next_outgoing_index + 1 ≤
          (runPolls rest (s.poll_next sched).2).2.next_outgoing_index := by
        have := IH.2.2.2.1
        omega
      refine ⟨IH.1, IH.2.1, hinc2, by omega, ?_, ?_⟩
      · show emitted (PollResult.readySome x :: (runPolls rest (s.poll_next sched).2).1) =
          (List.range' s.next_outgoing_index
            ((runPolls rest (s.poll_next sched).2).2.next_outgoing_index -
              s.next_outgoing_index)).filterMap v
        rw [emitted]
        have hk : (runPolls rest (s.poll_next sched).2).2.next_outgoing_index -
            s.next_outgoing_index =
            ((runPolls rest (s.poll_next sched).2).2.next_outgoing_index -
              (s.next_outgoing_index + 1)) + 1 := by omega
        rw [hk, List.range'_succ, List.filterMap_cons, hvx]
        have hem := IH.2.2.2.2.1
        rw [hout] at hem
        rw [hem]
      · intro hmem
        rcases List.mem_cons.mp hmem with hcon | hmem'
        · exact absurd hcon.symm (by simp)
        · exact (IH.2.2.2.2.2 hmem').trans HP.1.2.2
    | readyNone =>
      obtain ⟨hstate, houtinc, hflight, hbuf⟩ := HP.2.2.1 hP1
      have hout2 : (s.poll_next sched).2.next_outgoing_index =
          s.next_outgoing_index := by rw [hstate]
      have hRle : (runPolls rest (s.poll_next sched).2).2.next_outgoing_index ≤
          s.next_incoming_index := by
        have h1 := IH.1.1
        omega
      have hRge : s.next_outgoing_index ≤
          (runPolls rest (s.poll_next sched).2).2.next_outgoing_index := by
        have := IH.2.2.2.1
        omega
      refine ⟨IH.1, IH.2.1, hinc2, hRge, ?_, ?_⟩
      · show emitted (PollResult.readyNone :: (runPolls rest (s.poll_next sched).2).1) =
          (List.range' s.next_outgoing_index
            ((runPolls rest (s.poll_next sched).2).2.next_outgoing_index -
              s.next_outgoing_index)).filterMap v
        rw [emitted]
        have hem := IH.2.2.2.2.1
        rw [hout2] at hem
        exact hem
      · intro _
        omega
    | pending =>
      have hout2 : (s.poll_next sched).2.next_outgoing_index =
          s.next_outgoing_index := HP.2.2.2 hP1
      have hRge : s.next_outgoing_index ≤
          (runPolls rest (s.poll_next sched).2).2.next_outgoing_index := by
        have := IH.2.2.2.1
        omega
      refine ⟨IH.1, IH.2.1, hinc2, hRge, ?_, ?_⟩
      · show emitted (PollResult.pending :: (runPolls rest (s.poll_next sched).2).1) =
          (List.range' s.next_outgoing_index
            ((runPolls rest (s.poll_next sched).2).2.next_outgoing_index -
              s.next_outgoing_index)).filterMap v
        rw [emitted]
        have hem := IH.2.2.2.2.1
        rw [hout2] at hem
        exact hem
      · intro hmem
        rcases List.mem_cons.mp hmem with hcon | hmem'
        · exact absurd hcon.symm (by simp)
        · exact (IH.2.2.2.2.2 hmem').trans HP.1.2.2

lemma filterMap_getElem_range :
    ∀ (k : Nat) (vs : List α), k ≤ vs.length →
      (List.range k).filterMap (fun i => vs[i]?) = vs.take k := by
  intro k
  induction k with
  | zero =>
    intro vs _
    simp
  | succ k ih =>
    intro vs h
    cases vs with
    | nil => simp at h
    | cons x rest =>
      rw [List.range_succ_eq_map, List.filterMap_cons]
      simp only [List.getElem?_cons_zero]
      rw [List.filterMap_map]
      have hcomp : ((fun i => (x :: rest)[i]?) ∘ Nat.succ) = fun i => rest[i]? := by
        funext i
        simp
      rw [hcomp, ih rest (by simpa using h), List.take_succ_cons]

lemma poll_next_new (sched : List MuxChoice) :
    (FuturesOrdered.new (α := α)).poll_next sched =
      (PollResult.readyNone, FuturesOrdered.new) := by
  rw [poll_next_eq_pollLoop_of_nil rfl]
  cases sched with
  | nil => rfl
  | cons c cs =>
    have hmux : muxPoll (FuturesOrdered.new (α := α)).in_progress_queue c =
        (MuxOut.done, []) := rfl
    rw [pollLoop_done hmux]
    rfl

lemma poll_next_of_empty {s : FuturesOrdered α} (hq : s.in_progress_queue = [])
    (hb : s.queued_results = []) (sched : List MuxChoice) :
    s.poll_next sched = (PollResult.readyNone, s) := by
  rw [poll_next_eq_pollLoop_of_nil hb]
  cases sched with
  | nil => simp [pollLoop, hq]
  | cons c cs =>
    have hmux : muxPoll s.in_progress_queue c = (MuxOut.done, []) := by
      rw [hq, muxPoll_nil]
    rw [pollLoop_done hmux, set_flight_eq_self hq]

lemma pairwise_lt_range' : ∀ (n s : Nat), List.Pairwise (· < ·) (List.range' s n)
  | 0, s => by simp
  | n+1, s => by
    rw [List.range'_succ]
    refine List.Pairwise.cons ?_ (pairwise_lt_range' n (s+1))
    intro b hb
    have := List.mem_range'_1.mp hb
    omega

/-- C1: Order preservation.  For every list of submitted futures and every
completion schedule (any order, any interleaving of pending rounds), the
values delivered across repeated `poll_next` calls are exactly the first
`next_outgoing_index` submitted values in submission order; and whenever any
call has returned `Ready(None)`, all submitted values have been delivered, in
exactly submission order, beforehand. -/
theorem order_preservation (vs : List α) (scheds : List (List MuxChoice)) :
    emitted (runPolls scheds (pushList vs FuturesOrdered.new)).1 =
      vs.take
        (runPolls scheds (pushList vs FuturesOrdered.new)).2.next_outgoing_index ∧
    (PollResult.readyNone ∈ (runPolls scheds (pushList vs FuturesOrdered.new)).1 →
      emitted (runPolls scheds (pushList vs FuturesOrdered.new)).1 = vs) := by
  have H := runPolls_spec (fun j => vs[j]?) scheds (pushList vs FuturesOrdered.new)
    (initial_Inv vs) (initial_agrees vs)
  have hout0 : (pushList vs FuturesOrdered.new).next_outgoing_index = 0 := by
    rw [pushList_new]
  have hinc0 : (pushList vs FuturesOrdered.new).next_incoming_index = vs.length := by
    rw [pushList_new]
  rw [hout0, hinc0] at H
  obtain ⟨hInvR, -, hincR, -, hem, hnone⟩ := H
  have houtle :
      (runPolls scheds (pushList vs FuturesOrdered.new)).2.next_outgoing_index ≤
        vs.length := by
    have h1 := hInvR.1
    rw [hincR] at h1
    exact h1
  constructor
  · rw [hem]
    simp only [Nat.sub_zero]
    rw [← List.range_eq_range']
    exact filterMap_getElem_range _ vs houtle
  · intro hmem
    rw [hem, hnone hmem]
    simp only [Nat.sub_zero]
    rw [← List.range_eq_range', filterMap_getElem_range vs.length vs (Nat.le_refl _)]
    exact List.take_length vs

/-- C1 witness: two futures completing in reverse order are still delivered
in submission order before `Ready(None)`. -/
theorem order_preservation_witness :
    PollResult.readyNone ∈
      (runPolls [[MuxChoice.complete 1, MuxChoice.complete 0], [], []]
        (pushList [10, 20] FuturesOrdered.new)).1 ∧
    emitted (runPolls [[MuxChoice.complete 1, MuxChoice.complete 0], [], []]
        (pushList [10, 20] FuturesOrdered.new)).1 = [10, 20] :=
  ⟨by decide,
   (order_preservation [10, 20]
      [[MuxChoice.complete 1, MuxChoice.complete 0], [], []]).2 (by decide)⟩

/-- C2: Buffer-first release.  If the buffer's minimum entry (its head, which
under the reachable-state invariant is minimal, first conjunct) carries
`next_outgoing_index`, then `poll_next` pops exactly that entry, increments
`next_outgoing_index`, and returns its value — the equation holds for every
schedule and leaves `in_progress_queue` untouched, so the multiplexer is
never polled.  If the minimum does not match, `poll_next` proceeds to the
drain loop with the whole state, buffer included, unchanged. -/
theorem buffer_first_release (s : FuturesOrdered α) (w : OrderWrapper α)
    (rest : List (OrderWrapper α)) (sched : List MuxChoice)
    (hbuf : s.queued_results = w :: rest) :
    (s.Reachable → ∀ u ∈ rest, w.index ≤ u.index) ∧
    (w.index = s.next_outgoing_index →
      s.poll_next sched =
        (PollResult.readySome w.item,
          { s with queued_results := rest
                   next_outgoing_index := s.next_outgoing_index + 1 })) ∧
    (w.index ≠ s.next_outgoing_index → s.poll_next sched = pollLoop sched s) := by
  refine ⟨?_, ?_, ?_⟩
  · intro hr u hu
    have hsort := (reachable_inv hr).2.2
    simp only [bufIndices, hbuf, List.map_cons, List.pairwise_cons] at hsort
    exact hsort.1 u.index (List.mem_map_of_mem OrderWrapper.index hu)
  · intro hidx
    exact poll_next_eq_pop hbuf hidx
  · intro hidx
    exact poll_next_eq_pollLoop_of_no_match hbuf hidx

/-- C2 witness: after pushing 10 and 20 and letting the second future finish
early, the buffered entry has index 1 ≠ 0, so `poll_next` falls through to
the loop; after index 0 is released, the buffered minimum matches and is
popped without a multiplexer poll. -/
theorem buffer_first_release_witness :
    ((((FuturesOrdered.new.push 10).push 20).poll_next
        [MuxChoice.complete 1, MuxChoice.complete 0]).2.queued_results =
      [({ item := 20, index := 1 } : OrderWrapper Nat)]) ∧
    ((((FuturesOrdered.new.push 10).push 20).poll_next
        [MuxChoice.complete 1, MuxChoice.complete 0]).2.poll_next []).1 =
      PollResult.readySome 20 :=
  ⟨by decide,
   by
    rw [(buffer_first_release
      (((FuturesOrdered.new.push 10).push 20).poll_next
        [MuxChoice.complete 1, MuxChoice.complete 0]).2
      { item := 20, index := 1 } [] [] (by decide)).2.1 (by decide)]⟩

/-- C3: Multiplexer drain loop.  Within one `poll_next` call: a completion
whose index differs from `next_outgoing_index` is inserted into the buffer
and the multiplexer is polled again in the same call (the loop recurses); a
completion whose index matches is returned at once with the counter
incremented; and a pending multiplexer means the call returns `Pending` —
nothing else, and no further polling that round. -/
theorem drain_loop_behaviour (s : FuturesOrdered α) (c : MuxChoice)
    (cs : List MuxChoice) (w : OrderWrapper α) (q : List (OrderWrapper α)) :
    (muxPoll s.in_progress_queue c = (MuxOut.ready w, q) →
      w.index ≠ s.next_outgoing_index →
      pollLoop (c :: cs) s =
        pollLoop cs
          { s with in_progress_queue := q
                   queued_results := heapPush w s.queued_results }) ∧
    (muxPoll s.in_progress_queue c = (MuxOut.ready w, q) →
      w.index = s.next_outgoing_index →
      pollLoop (c :: cs) s =
        (PollResult.readySome w.item,
          { s with in_progress_queue := q
                   next_outgoing_index := s.next_outgoing_index + 1 })) ∧
    (muxPoll s.in_progress_queue c = (MuxOut.pending, q) →
      pollLoop (c :: cs) s = (PollResult.pending, { s with in_progress_queue := q })) :=
  ⟨fun h h2 => pollLoop_ready_buffer h h2,
   fun h h2 => pollLoop_ready_match h h2,
   fun h => pollLoop_pending h⟩

/-- C3 witness: with two futures in flight and index 1 completing first, the
loop buffers it and polls the multiplexer again within the same call. -/
theorem drain_loop_behaviour_witness :
    muxPoll [({ item := 7, index := 0 } : OrderWrapper Nat),
        { item := 8, index := 1 }] (MuxChoice.complete 1) =
      (MuxOut.ready { item := 8, index := 1 }, [{ item := 7, index := 0 }]) ∧
    pollLoop [MuxChoice.complete 1, MuxChoice.complete 0]
        (pushList [7, 8] FuturesOrdered.new) =
      pollLoop [MuxChoice.complete 0]
        { pushList [7, 8] FuturesOrdered.new with
          in_progress_queue := [{ item := 7, index := 0 }]
          queued_results :=
            heapPush { item := 8, index := 1 }
              (pushList [7, 8] FuturesOrdered.new).queued_results } :=
  ⟨by decide,
   (drain_loop_behaviour (pushList [7, 8] FuturesOrdered.new)
      (MuxChoice.complete 1) [MuxChoice.complete 0]
      { item := 8, index := 1 } [{ item := 7, index := 0 }]).1
    (by decide) (by decide)⟩

lemma ready_none_state {s : FuturesOrdered α} {sched : List MuxChoice}
    (hr : s.Reachable) (hnone : (s.poll_next sched).1 = PollResult.readyNone) :
    s.queued_results = [] ∧ (s.poll_next sched).2 = s ∧
    s.in_progress_queue = [] ∧
    s.next_outgoing_index = s.next_incoming_index := by
  obtain ⟨v, hAg⟩ := exists_agrees (reachable_inv hr)
  have H := (poll_next_spec v sched s (reachable_inv hr) hAg).2.2.1 hnone
  exact ⟨H.2.2.2, H.1, H.2.2.1, H.2.1⟩

/-- C4: End-of-sequence safety.  In every state reachable by submissions and
polls, whenever `poll_next` returns `Ready(None)` (which in the embedding
happens exactly on the multiplexer's exhaustion report, the only source of
that result), the reorder buffer was already empty — both at the start of the
call and when the branch is taken — the in-flight set is empty, the state is
unchanged, and the counters agree, so no buffered result is discarded. -/
theorem end_of_sequence_safety (s : FuturesOrdered α) (sched : List MuxChoice)
    (hr : s.Reachable) (hnone : (s.poll_next sched).1 = PollResult.readyNone) :
    s.queued_results = [] ∧ (s.poll_next sched).2 = s ∧
    s.in_progress_queue = [] ∧
    s.next_outgoing_index = s.next_incoming_index :=
  ready_none_state hr hnone

/-- C4 witness: the empty queue returns `Ready(None)` with an empty buffer. -/
theorem end_of_sequence_safety_witness :
    ((FuturesOrdered.new (α := Nat)).poll_next []).1 = PollResult.readyNone ∧
    (FuturesOrdered.new (α := Nat)).queued_results = [] :=
  ⟨by decide,
   (end_of_sequence_safety FuturesOrdered.new [] FuturesOrdered.Reachable.base
      (by decide)).1⟩

/-- C5: Empty-queue polling.  A freshly constructed queue returns
`Ready(None)` on the first `poll_next` whatever the schedule, leaving the
state unchanged; and any reachable queue that has just returned `Ready(None)`
keeps returning `Ready(None)` with unchanged state on every further
`poll_next` with no intervening push. -/
theorem empty_queue_polling :
    (∀ sched : List MuxChoice,
      (FuturesOrdered.new (α := α)).poll_next sched =
        (PollResult.readyNone, FuturesOrdered.new)) ∧
    (∀ (s : FuturesOrdered α) (sched sched' : List MuxChoice), s.Reachable →
      (s.poll_next sched).1 = PollResult.readyNone →
      (s.poll_next sched).2.poll_next sched' =
        (PollResult.readyNone, (s.poll_next sched).2)) := by
  constructor
  · exact poll_next_new
  · intro s sched sched' hr hnone
    obtain ⟨hbuf, hstate, hq, -⟩ := ready_none_state hr hnone
    rw [hstate]
    exact poll_next_of_empty hq hbuf sched'

/-- C5 witness: first poll of the fresh queue, and stability of `Ready(None)`
under repolling. -/
theorem empty_queue_polling_witness :
    ((FuturesOrdered.new (α := Nat)).poll_next [MuxChoice.complete 0] =
      (PollResult.readyNone, FuturesOrdered.new)) ∧
    (((FuturesOrdered.new (α := Nat)).poll_next []).2.poll_next [] =
      (PollResult.readyNone, ((FuturesOrdered.new (α := Nat)).poll_next []).2)) :=
  ⟨(@empty_queue_polling Nat).1 [MuxChoice.complete 0],
   (@empty_queue_polling Nat).2 FuturesOrdered.new [] []
      FuturesOrdered.Reachable.base (by decide)⟩

lemma pollLoop_singleton_match {s : FuturesOrdered α} {w : OrderWrapper α}
    (hq : s.in_progress_queue = [w]) (hidx : w.index = s.next_outgoing_index) :
    ∀ sched, (pollLoop sched s).1 = PollResult.readySome w.item ∨
      (pollLoop sched s).1 = PollResult.pending := by
  intro sched
  cases sched with
  | nil =>
    right
    simp [pollLoop, hq]
  | cons c cs =>
    cases c with
    | pending =>
      rw [pollLoop_pending (muxPoll_pending_choice (by simp [hq]))]
      right
      rfl
    | complete pos =>
      by_cases hpos : pos < s.in_progress_queue.length
      · have hpos0 : pos = 0 := by
          rw [hq] at hpos
          simpa using hpos
        subst hpos0
        have hmux : muxPoll s.in_progress_queue (MuxChoice.complete 0) =
            (MuxOut.ready w, []) := by
          rw [hq]
          rfl
        rw [pollLoop_ready_match hmux hidx]
        left
        rfl
      · rw [pollLoop_pending (muxPoll_complete_oob (by simp [hq]) hpos)]
        right
        rfl

/-- C6: Resumability after exhaustion.  From any reachable state that has
just returned `Ready(None)`, pushing one more future and polling with a
schedule that completes it yields that future's value; and no schedule
whatsoever can make the next poll return `Ready(None)`, so there is no
permanent closed state. -/
theorem resumability_after_exhaustion (s : FuturesOrdered α)
    (sched : List MuxChoice) (x : α) (hr : s.Reachable)
    (hnone : (s.poll_next sched).1 = PollResult.readyNone) :
    (((s.poll_next sched).2.push x).poll_next [MuxChoice.complete 0]).1 =
      PollResult.readySome x ∧
    ∀ sched' : List MuxChoice,
      (((s.poll_next sched).2.push x).poll_next sched').1 ≠
        PollResult.readyNone := by
  obtain ⟨hbuf, hstate, hq, houtinc⟩ := ready_none_state hr hnone
  rw [hstate]
  have hq' : (s.push x).in_progress_queue =
      [{ item := x, index := s.next_incoming_index }] := by
    show s.in_progress_queue ++ _ = _
    rw [hq]
    rfl
  have hb' : (s.push x).queued_results = [] := hbuf
  have hidx' : ({ item := x, index := s.next_incoming_index } : OrderWrapper α).index =
      (s.push x).next_outgoing_index := by
    show s.next_incoming_index = s.next_outgoing_index
    omega
  constructor
  · rw [poll_next_eq_pollLoop_of_nil hb']
    have hmux : muxPoll (s.push x).in_progress_queue (MuxChoice.complete 0) =
        (MuxOut.ready { item := x, index := s.next_incoming_index }, []) := by
      rw [hq']
      rfl
    rw [pollLoop_ready_match hmux hidx']
  · intro sched'
    rw [poll_next_eq_pollLoop_of_nil hb']
    rcases pollLoop_singleton_match hq' hidx' sched' with h | h <;> simp [h]

/-- C6 witness: after the fresh queue's `Ready(None)`, pushing 42 and
completing it delivers 42. -/
theorem resumability_after_exhaustion_witness :
    ((FuturesOrdered.new (α := Nat)).poll_next []).1 = PollResult.readyNone ∧
    ((((FuturesOrdered.new (α := Nat)).poll_next []).2.push 42).poll_next
        [MuxChoice.complete 0]).1 = PollResult.readySome 42 :=
  ⟨by decide,
   (resumability_after_exhaustion FuturesOrdered.new [] 42
      FuturesOrdered.Reachable.base (by decide)).1⟩

/-- C7: State invariant.  Both counters start at 0; in every reachable state
`next_outgoing_index ≤ next_incoming_index`, the sequence numbers held in
flight or buffered are, as a multiset, exactly the interval
`[next_outgoing_index, next_incoming_index)`, each held exactly once and in
exactly one of the two structures (the permutation of the concatenation with
a duplicate-free interval), and in particular the buffer never holds two
entries with the same sequence number. -/
theorem state_invariant :
    (FuturesOrdered.new (α := α)).next_incoming_index = 0 ∧
    (FuturesOrdered.new (α := α)).next_outgoing_index = 0 ∧
    ∀ s : FuturesOrdered α, s.Reachable →
      s.next_outgoing_index ≤ s.next_incoming_index ∧
      List.Perm (flightIndices s ++ bufIndices s)
        (List.range' s.next_outgoing_index
          (s.next_incoming_index - s.next_outgoing_index)) ∧
      (flightIndices s ++ bufIndices s).Nodup ∧
      (bufIndices s).Nodup := by
  refine ⟨rfl, rfl, ?_⟩
  intro s hr
  have hInv := reachable_inv hr
  have hnd : (flightIndices s ++ bufIndices s).Nodup :=
    (hInv.2.1.nodup_iff).mpr (List.nodup_range' _ _)
  exact ⟨hInv.1, hInv.2.1, hnd, hnd.of_append_right⟩

/-- C7 witness: the invariant instantiated at the freshly constructed
queue. -/
theorem state_invariant_witness :
    (FuturesOrdered.new (α := Nat)).next_outgoing_index ≤
      (FuturesOrdered.new (α := Nat)).next_incoming_index :=
  ((@state_invariant Nat).2.2 FuturesOrdered.new FuturesOrdered.Reachable.base).1

lemma wrapFrom_length (i : Nat) (l : List α) :
    (wrapFrom i l).length = l.length := by
  have h := congrArg List.length (wrapFrom_map_index l i)
  simpa using h

/-- C8: Count accounting.  `len` is the number of in-flight futures plus the
number of buffered results and `is_empty` holds exactly when both are zero
(both are pure functions of the state in the embedding, so they poll nothing
and mutate nothing); pushing k futures adds k to `len`, and in every
reachable state `len` equals `next_incoming_index - next_outgoing_index`, so
releasing m results subtracts m. -/
theorem count_accounting :
    (∀ s : FuturesOrdered α,
      s.len = s.in_progress_queue.length + s.queued_results.length) ∧
    (∀ s : FuturesOrdered α, s.is_empty = true ↔
      (s.in_progress_queue.length = 0 ∧ s.queued_results.length = 0)) ∧
    (∀ (s : FuturesOrdered α) (vs : List α),
      (pushList vs s).len = s.len + vs.length) ∧
    (∀ s : FuturesOrdered α, s.Reachable →
      s.len = s.next_incoming_index - s.next_outgoing_index) := by
  refine ⟨fun s => rfl, ?_, ?_, ?_⟩
  · intro s
    simp [FuturesOrdered.is_empty, List.isEmpty_iff, List.length_eq_zero]
  · intro s vs
    rw [pushList_eq]
    show (s.in_progress_queue ++ wrapFrom s.next_incoming_index vs).length +
        s.queued_results.length =
      s.in_progress_queue.length + s.queued_results.length + vs.length
    rw [List.length_append, wrapFrom_length]
    omega
  · intro s hr
    have hlen := (reachable_inv hr).2.1.length_eq
    simp only [List.length_append, flightIndices, bufIndices,
      List.length_map] at hlen
    show s.in_progress_queue.length + s.queued_results.length =
      s.next_incoming_index - s.next_outgoing_index
    simpa using hlen

/-- C8 witness: the accounting instantiated at the freshly constructed
queue. -/
theorem count_accounting_witness :
    (FuturesOrdered.new (α := Nat)).len =
      (FuturesOrdered.new (α := Nat)).next_incoming_index -
        (FuturesOrdered.new (α := Nat)).next_outgoing_index :=
  (@count_accounting Nat).2.2.2 FuturesOrdered.new FuturesOrdered.Reachable.base

lemma foldl_push_eq_pushList :
    ∀ (l : List α) (s : FuturesOrdered α),
      l.foldl (fun acc item => acc.push item) s = pushList l s := by
  intro l
  induction l with
  | nil =>
    intro s
    rfl
  | cons x xs ih =>
    intro s
    rw [List.foldl_cons, pushList]
    exact ih (s.push x)

/-- C9: Bulk construction equivalence.  `futures_ordered` and `from_iter`
produce exactly the queue obtained by starting from `new` and pushing each
future in input order, and the assigned sequence numbers are `0, 1, …,
N-1` following the input order. -/
theorem bulk_construction_equivalence (l : List α) :
    futures_ordered l = pushList l FuturesOrdered.new ∧
    FuturesOrdered.from_iter l = pushList l FuturesOrdered.new ∧
    flightIndices (futures_ordered l) = List.range l.length ∧
    (futures_ordered l).next_incoming_index = l.length := by
  have h : FuturesOrdered.from_iter l = pushList l FuturesOrdered.new :=
    foldl_push_eq_pushList l FuturesOrdered.new
  refine ⟨h, h, ?_, ?_⟩
  · show flightIndices (FuturesOrdered.from_iter l) = List.range l.length
    rw [h, pushList_new]
    show (wrapFrom 0 l).map OrderWrapper.index = List.range l.length
    rw [wrapFrom_map_index, List.range_eq_range']
  · show (FuturesOrdered.from_iter l).next_incoming_index = l.length
    rw [h, pushList_new]

/-- C10: Sequence counter arithmetic.  `push` tags the submitted future with
the pre-call value of `next_incoming_index` and increments the counter by
exactly one (all other fields untouched); over any run of pushes the counter
grows by the number of pushes, the assigned indices are the interval starting
at the old counter, and those indices are strictly increasing — the counter
is an unbounded natural number in the embedding, mirroring the source's plain
growing counter with no wraparound handling, so indices are never reused. -/
theorem sequence_counter_arithmetic (s : FuturesOrdered α) (x : α) :
    s.push x =
      { s with
        in_progress_queue := s.in_progress_queue ++
          [({ item := x, index := s.next_incoming_index } : OrderWrapper α)]
        next_incoming_index := s.next_incoming_index + 1 } ∧
    (∀ l : List α, (pushList l s).next_incoming_index =
      s.next_incoming_index + l.length) ∧
    (∀ l : List α, flightIndices (pushList l s) =
      flightIndices s ++ List.range' s.next_incoming_index l.length) ∧
    (∀ l : List α, List.Pairwise (· < ·)
      ((wrapFrom s.next_incoming_index l).map OrderWrapper.index)) := by
  refine ⟨rfl, ?_, ?_, ?_⟩
  · intro l
    rw [pushList_eq]
  · intro l
    rw [pushList_eq]
    show (s.in_progress_queue ++ wrapFrom s.next_incoming_index l).map
        OrderWrapper.index =
      flightIndices s ++ List.range' s.next_incoming_index l.length
    rw [List.map_append, wrapFrom_map_index]
    rfl
  · intro l
    rw [wrapFrom_map_index]
    exact pairwise_lt_range' _ _
